import Mathlib

/-
  Verification development for the collaborative-editor backend.

  The repository ships `src/backend/src/server.ts` (connection handling,
  authorization, session registry, REST glue).  The OT engine and the
  `DocumentSession` class live in `./services/DocumentSession`, which is not
  part of the sources available here; those parts are modelled from the
  specification (section 4.1 "OT Engine", 4.2 "Document Session"), and each
  such definition says so in its doc comment.
-/

namespace CTE

/-- Modelled from the spec: the operation kinds of the data model (section 3),
`insert`, `delete` and `formatRange`. -/
inductive Kind where
  | insert
  | delete
  | formatRange
deriving DecidableEq, Repr

/-- Modelled from the spec: an edit operation (section 3 "Operation").
`content` is used by inserts, `length` by deletes and formats.  Document
content is modelled as a list of characters. -/
structure Op where
  kind : Kind
  position : Nat
  content : List Char
  length : Nat
  baseVersion : Nat
  originId : String
  clientSeq : Nat
deriving DecidableEq, Repr

/-- Modelled from the spec: the length in characters that an operation
inserts (its `content` length for an insert, 0 otherwise). -/
def Op.insLen (o : Op) : Nat :=
  match o.kind with
  | Kind.insert => o.content.length
  | _ => 0

/-- Modelled from the spec: transform one operation `op` against a single
prior committed operation `c` (section 4.1, one fold step of
`transform(op, concurrentOps)`), implementing the transform rules verbatim:

* insert vs insert: shift right by the prior insert length when the prior
  position is smaller, breaking an exact tie by lexicographic `originId`
  (the smaller id is treated as occurring first);
* insert vs delete: shift left when the prior deleted range lies entirely
  before, clamp to the range start when the range contains the position;
* delete vs insert: shift right when the prior insert is at or before the
  start, widen when the prior insert falls inside the deleted range;
* delete vs delete: the original range minus the overlap already consumed
  by the prior delete;
* formatRange endpoints shift by the same offset rules as delete ranges;
  a prior formatRange shifts nothing. -/
def transformOne (op c : Op) : Op :=
  match op.kind, c.kind with
  | Kind.insert, Kind.insert =>
      if c.position < op.position ∨
          (c.position = op.position ∧ c.originId < op.originId) then
        { op with position := op.position + c.content.length }
      else op
  | Kind.insert, Kind.delete =>
      if c.position + c.length ≤ op.position then
        { op with position := op.position - c.length }
      else if c.position ≤ op.position then
        { op with position := c.position }
      else op
  | Kind.delete, Kind.insert =>
      if c.position ≤ op.position then
        { op with position := op.position + c.content.length }
      else if c.position < op.position + op.length then
        { op with length := op.length + c.content.length }
      else op
  | Kind.delete, Kind.delete =>
      { op with
        position := op.position - (min (c.position + c.length) op.position - c.position),
        length := op.length -
          (min (c.position + c.length) (op.position + op.length) -
            max c.position op.position) }
  | Kind.formatRange, Kind.insert =>
      if c.position ≤ op.position then
        { op with position := op.position + c.content.length }
      else if c.position < op.position + op.length then
        { op with length := op.length + c.content.length }
      else op
  | Kind.formatRange, Kind.delete =>
      { op with
        position := op.position - (min (c.position + c.length) op.position - c.position),
        length := op.length -
          (min (c.position + c.length) (op.position + op.length) -
            max c.position op.position) }
  | _, Kind.formatRange => op

/-- Modelled from the spec: `transform(op, concurrentOps)` folds `op`
through each committed concurrent operation in commit order (section 4.1). -/
def transform (op : Op) (concurrentOps : List Op) : Op :=
  concurrentOps.foldl transformOne op

/-- Modelled from the spec: splice `s` into the document at offset `p`. -/
def insertAt (p : Nat) (s d : List Char) : List Char :=
  d.take p ++ s ++ d.drop p

/-- Modelled from the spec: remove `l` characters starting at offset `p`. -/
def deleteAt (p l : Nat) (d : List Char) : List Char :=
  d.take p ++ d.drop (p + l)

/-- Modelled from the spec: apply an operation to linear document content
(section 3): an insert splices its content at `position`, a delete removes
`length` characters starting at `position`, a formatRange leaves the linear
text unchanged. -/
def applyOp (op : Op) (d : List Char) : List Char :=
  match op.kind with
  | Kind.insert => insertAt op.position op.content d
  | Kind.delete => deleteAt op.position op.length d
  | Kind.formatRange => d

/-- Modelled from the spec: the authoritative Document State of one
(document, tab) (section 3): materialized content, version counter, and the
history of accepted operations, where `history[i]` produced the transition
from version `i` to `i + 1`. -/
structure DocState where
  content : List Char
  version : Nat
  history : List Op
deriving DecidableEq, Repr

/-- Modelled from the spec: a broadcast to peers carries the transformed
operation together with the version it produced (sections 4.2 and 6). -/
structure Broadcast where
  version : Nat
  op : Op
deriving DecidableEq, Repr

/-- Modelled from the spec: `submit` (section 4.2): transform the incoming
operation against the history entries committed since its `baseVersion`,
apply it to the content, increment the version, append to history, and
broadcast the transformed operation tagged with the new version. -/
def submit (st : DocState) (op : Op) : DocState × Broadcast :=
  let op' := transform op (st.history.drop op.baseVersion)
  ({ content := applyOp op' st.content,
     version := st.version + 1,
     history := st.history ++ [op'] },
   { version := st.version + 1, op := op' })

/-- Modelled from the spec: the session applies submitted operations one at
a time in arrival order (section 4.2 step 2), collecting the broadcasts. -/
def runServer : DocState → List Op → DocState × List Broadcast
  | st, [] => (st, [])
  | st, op :: rest =>
      let p := submit st op
      let r := runServer p.1 rest
      (r.1, p.2 :: r.2)

/-- Modelled from the spec: a fresh Document State at version 0 with empty
history (section 3: `version` starts at 0). -/
def initState (c : List Char) : DocState :=
  { content := c, version := 0, history := [] }

/-! Embedding of `src/backend/src/server.ts`. -/

/-- Embeds JavaScript truthiness of a nullable string as used by
`server.ts` (`!role`, `!docId`): `null` and the empty string are falsy. -/
def jsTruthy : Option String → Bool
  | none => false
  | some s => decide (s ≠ "")

/-- Embeds the defaulting expression
`(await redis.hget(..., 'link_access')) || 'none'` of `server.ts` line 228:
a missing or empty value becomes the string `none`. -/
def linkSettingOf : Option String → String
  | none => "none"
  | some s => if s = "" then "none" else s

/-- Embeds the role resolution of the connection handler,
`server.ts` lines 226-232: the owner always gets `owner`; otherwise a truthy
ACL entry is used as-is; otherwise the link-sharing setting is used unless it
is `none`, in which case the connection is denied (`none` result). -/
def authorize (owner aclRole linkAccess : Option String) (userId : String) :
    Option String :=
  let linkSetting := linkSettingOf linkAccess
  if owner = some userId then some "owner"
  else if jsTruthy aclRole then aclRole
  else if linkSetting ≠ "none" then some linkSetting
  else none

/-- Observable actions the connection handler performs on a socket.
`close none` is `ws.close()` called with no close code. -/
inductive WsAction where
  | send (msg : String)
  | close (code : Option Nat)
  | accept (userId role : String)
deriving DecidableEq, Repr

/-- Embeds the literal payload
`JSON.stringify(\x7b type: 'error', message: 'Access Denied.' \x7d)` sent by
`server.ts` line 230 before the denied connection is closed. -/
def accessDeniedMsg : String :=
  "\x7b\"type\":\"error\",\"message\":\"Access Denied.\"\x7d"

/-- Embeds the connection handler of `server.ts` lines 219-236: missing
query parameters close the socket at once; a denied user gets the error
payload and then `ws.close()` (no close code); otherwise the connection is
admitted with the resolved role (`finalRole || 'viewer'`). -/
def connectionHandler (docId tabId userId : Option String)
    (owner aclRole linkAccess : Option String) : List WsAction :=
  match docId, tabId, userId with
  | some d, some t, some u =>
      if d = "" ∨ u = "" ∨ t = "" then [WsAction.close none]
      else
        match authorize owner aclRole linkAccess u with
        | none => [WsAction.send accessDeniedMsg, WsAction.close none]
        | some role => [WsAction.accept u (if role = "" then "viewer" else role)]
  | _, _, _ => [WsAction.close none]

/-- Embeds the session key construction of `server.ts` line 233. -/
def sessionKey (docId tabId : String) : String := docId ++ "::" ++ tabId

/-- Embeds `sessions.has`-style lookup on the process-wide registry, the
registry being modelled as an association list from key to session id. -/
def lookupSession : List (String × Nat) → String → Option Nat
  | [], _ => none
  | (k, v) :: rest, key => if k = key then some v else lookupSession rest key

/-- Embeds `server.ts` lines 234-235:
`if (!sessions.has(sessionKey)) sessions.set(sessionKey, new DocumentSession(...))`
followed by `sessions.get(sessionKey)`.  `fresh` is the identity of the
`DocumentSession` object a `new` would allocate. -/
def resolveSession (reg : List (String × Nat)) (key : String) (fresh : Nat) :
    Nat × List (String × Nat) :=
  match lookupSession reg key with
  | some sid => (sid, reg)
  | none => (fresh, reg ++ [(key, fresh)])

/-- State of the process around the `sessions` map of `server.ts` line 71:
the registry, the id the next `new DocumentSession` would get, the number of
live connections per session id, and elapsed time.  Connection counts stand
in for the connection set kept inside the (absent) `DocumentSession` class. -/
structure ServerState where
  registry : List (String × Nat)
  nextSession : Nat
  conns : List Nat
  time : Nat
deriving DecidableEq, Repr

/-- Events observable at the connection boundary: a new accepted connection
to a (document, tab), a socket close (the `ws.on('close')` handler of
`server.ts` line 238, which only calls `session.removeUser` and never
touches the `sessions` map), and the passage of time (no code in
`server.ts` runs on a timer against the registry — the file contains no
`sessions.delete`). -/
inductive SrvEvent where
  | connect (docId tabId : String)
  | disconnect (docId tabId : String)
  | tick
deriving DecidableEq, Repr

/-- Increment the connection count of session `i`. -/
def bumpAt (l : List Nat) (i : Nat) : List Nat := l.set i (l.getD i 0 + 1)

/-- Decrement the connection count of session `i`. -/
def decAt (l : List Nat) (i : Nat) : List Nat := l.set i (l.getD i 0 - 1)

/-- Embeds one step of the registry life cycle from `server.ts`: `connect`
runs lines 233-236 (resolve-or-create, then `addUser`); `disconnect` runs
the close handler of line 238 (`removeUser` only — the registry is not
modified); `tick` is time passing (nothing in the file reacts to it). -/
def srvStep (st : ServerState) (e : SrvEvent) : ServerState :=
  match e with
  | SrvEvent.connect d t =>
      match lookupSession st.registry (sessionKey d t) with
      | some sid => { st with conns := bumpAt st.conns sid }
      | none =>
          { registry := st.registry ++ [(sessionKey d t, st.nextSession)],
            nextSession := st.nextSession + 1,
            conns := st.conns ++ [1],
            time := st.time }
  | SrvEvent.disconnect d t =>
      match lookupSession st.registry (sessionKey d t) with
      | some sid => { st with conns := decAt st.conns sid }
      | none => st
  | SrvEvent.tick => { st with time := st.time + 1 }

/-- The server starts with an empty `sessions` map. -/
def srvInit : ServerState :=
  { registry := [], nextSession := 0, conns := [], time := 0 }

/-- Run the server from start over a list of boundary events. -/
def runSrv (evs : List SrvEvent) : ServerState :=
  evs.foldl srvStep srvInit

/-- Embeds the inbound message handler wired by `server.ts` line 237:
`ws.on('message', m => { const data = JSON.parse(m.toString());
session.handleEdit(connectionId, data) })`.  There is no try/catch in the
handler, so when `JSON.parse` throws on a malformed frame the exception
escapes the callback; this is the `Except.error` outcome.  The parser and
the edit handler are parameters because they live outside this file
(`JSON.parse` is a platform function, `handleEdit` is in the absent
`DocumentSession`). -/
def wsMessageHandler (parse : String → Option Op)
    (handleEdit : Op → DocState → DocState × List Broadcast)
    (frame : String) (st : DocState) :
    Except Unit (DocState × List Broadcast) :=
  match parse frame with
  | none => Except.error ()
  | some op => Except.ok (handleEdit op st)

/-! Concrete data for the example scenario, the counterexamples and the
witnesses. -/

/-- A placeholder history entry used to build a state at a nonzero version. -/
def noOp : Op :=
  { kind := Kind.formatRange, position := 0, content := [], length := 0,
    baseVersion := 0, originId := "", clientSeq := 0 }

/-- The example-scenario state: content hello at version 5. -/
def stC2 : DocState :=
  { content := "hello".toList, version := 5, history := List.replicate 5 noOp }

/-- Client A of the example scenario: insert(5, " world") at baseVersion 5. -/
def opA2 : Op :=
  { kind := Kind.insert, position := 5, content := " world".toList,
    length := 0, baseVersion := 5, originId := "A", clientSeq := 1 }

/-- Client B of the example scenario: insert(0, "Hi, ") at baseVersion 5. -/
def opB2 : Op :=
  { kind := Kind.insert, position := 0, content := "Hi, ".toList,
    length := 0, baseVersion := 5, originId := "B", clientSeq := 1 }

/-- Concurrent insert(2, "x") with baseVersion 0, origin A. -/
def opC1a : Op :=
  { kind := Kind.insert, position := 2, content := "x".toList, length := 0,
    baseVersion := 0, originId := "A", clientSeq := 1 }

/-- Concurrent delete(1, 2) with baseVersion 0, origin B. -/
def opC1b : Op :=
  { kind := Kind.delete, position := 1, content := [], length := 2,
    baseVersion := 0, originId := "B", clientSeq := 1 }

/-- A boundary trace: one connection opens, closes, and time passes. -/
def c10trace : List SrvEvent :=
  [SrvEvent.connect "d" "t", SrvEvent.disconnect "d" "t",
   SrvEvent.tick, SrvEvent.tick, SrvEvent.tick]

/-- Concrete insert used to instantiate the amended convergence claim. -/
def w1a : Op :=
  { kind := Kind.insert, position := 0, content := ['u'], length := 0,
    baseVersion := 0, originId := "A", clientSeq := 1 }

/-- Concrete insert used to instantiate the amended convergence claim. -/
def w1b : Op :=
  { kind := Kind.insert, position := 1, content := ['v'], length := 0,
    baseVersion := 0, originId := "B", clientSeq := 1 }

/-- Concrete same-position insert with origin A. -/
def w3a : Op :=
  { kind := Kind.insert, position := 1, content := ['x'], length := 0,
    baseVersion := 0, originId := "A", clientSeq := 1 }

/-- Concrete same-position insert with origin B. -/
def w3b : Op :=
  { kind := Kind.insert, position := 1, content := ['y'], length := 0,
    baseVersion := 0, originId := "B", clientSeq := 1 }

/-- Concrete delete(0, 2) used to instantiate the delete-overlap claim. -/
def w4a : Op :=
  { kind := Kind.delete, position := 0, content := [], length := 2,
    baseVersion := 0, originId := "A", clientSeq := 1 }

/-- Concrete delete(1, 1), fully inside the range of the prior delete. -/
def w4b : Op :=
  { kind := Kind.delete, position := 1, content := [], length := 1,
    baseVersion := 0, originId := "B", clientSeq := 1 }

/-- Concrete insert used to instantiate the version invariant. -/
def w5a : Op :=
  { kind := Kind.insert, position := 2, content := ['z'], length := 0,
    baseVersion := 0, originId := "C", clientSeq := 1 }

/-- A concrete server state holding one registered session. -/
def wSrvState : ServerState :=
  { registry := [("a::b", 0)], nextSession := 1, conns := [1], time := 0 }

/-! Helper lemmas on list surgery, shared by several claims. -/

theorem take_append_long (l1 l2 : List Char) (n : Nat) (h : l1.length ≤ n) :
    (l1 ++ l2).take n = l1 ++ l2.take (n - l1.length) := by
  rw [List.take_append_eq_append_take, List.take_of_length_le h]

theorem drop_append_long (l1 l2 : List Char) (n : Nat) (h : l1.length ≤ n) :
    (l1 ++ l2).drop n = l2.drop (n - l1.length) := by
  rw [List.drop_append_eq_append_drop, List.drop_eq_nil_of_le h, List.nil_append]

theorem take_append_short (l1 l2 : List Char) (n : Nat) (h : n ≤ l1.length) :
    (l1 ++ l2).take n = l1.take n := by
  rw [List.take_append_eq_append_take, Nat.sub_eq_zero_of_le h, List.take_zero,
    List.append_nil]

theorem drop_append_short (l1 l2 : List Char) (n : Nat) (h : n ≤ l1.length) :
    (l1 ++ l2).drop n = l1.drop n ++ l2 := by
  rw [List.drop_append_eq_append_drop, Nat.sub_eq_zero_of_le h, List.drop_zero]

/-! General lemmas about the OT engine, the session run and the registry. -/

/-- Two concurrent inserts commute through the transform when the first
effectively precedes the second: inserting s at p and then t at the shifted
offset q + s.length equals inserting t at q and then s at p. -/
theorem ins_ins_core (d s t : List Char) (p q : Nat)
    (hp : p ≤ d.length) (hpq : p ≤ q) :
    insertAt (q + s.length) t (insertAt p s d)
      = insertAt p s (insertAt q t d) := by
  unfold insertAt
  have hAs : (d.take p ++ s).length = p + s.length := by
    simp only [List.length_append, List.length_take]; omega
  have hCt : p ≤ (d.take q ++ t).length := by
    simp only [List.length_append, List.length_take]; omega
  have hCp : p ≤ (d.take q).length := by
    simp only [List.length_take]; omega
  have e1 : q + s.length - (p + s.length) = q - p := by omega
  have e2 : p + (q - p) = q := by omega
  have h1 : (d.take p ++ s ++ d.drop p).take (q + s.length)
      = d.take p ++ s ++ (d.drop p).take (q - p) := by
    rw [take_append_long _ _ _ (by rw [hAs]; omega), hAs, e1]
  have h2 : (d.take p ++ s ++ d.drop p).drop (q + s.length)
      = (d.drop p).drop (q - p) := by
    rw [drop_append_long _ _ _ (by rw [hAs]; omega), hAs, e1]
  have h3 : (d.take q ++ t ++ d.drop q).take p = d.take p := by
    rw [take_append_short _ _ _ hCt, take_append_short _ _ _ hCp,
      List.take_take, Nat.min_eq_left hpq]
  have h4 : (d.take q ++ t ++ d.drop q).drop p
      = (d.drop p).take (q - p) ++ t ++ d.drop q := by
    rw [drop_append_short _ _ _ hCt, drop_append_short _ _ _ hCp,
      List.drop_take]
  have h5 : (d.drop p).drop (q - p) = d.drop q := by
    rw [List.drop_drop, e2]
  rw [h1, h2, h3, h4, h5]
  simp [List.append_assoc]

/-- Two inserts at the same offset where the first wins the tie: the second
lands right after it, giving s before t. -/
theorem ins_ins_tie_first (d s t : List Char) (p : Nat) (hp : p ≤ d.length) :
    insertAt (p + s.length) t (insertAt p s d)
      = d.take p ++ s ++ t ++ d.drop p := by
  have h := ins_ins_core d s t p p hp (Nat.le_refl p)
  rw [h]
  unfold insertAt
  have hCt : p ≤ (d.take p ++ t).length := by
    simp only [List.length_append, List.length_take]; omega
  have hCp : p ≤ (d.take p).length := by
    simp only [List.length_take]; omega
  rw [take_append_short _ _ _ hCt, take_append_short _ _ _ hCp,
    List.take_take, Nat.min_self, drop_append_short _ _ _ hCt,
    drop_append_short _ _ _ hCp, List.drop_take, Nat.sub_self,
    List.take_zero, List.nil_append]
  simp [List.append_assoc]

/-- Commutation of disjoint deletes, the first range entirely before the
second. -/
theorem del_del_core1 (d : List Char) (p l q m : Nat)
    (h1 : p + l ≤ q) (hq : q + m ≤ d.length) :
    deleteAt (q - l) m (deleteAt p l d) = deleteAt p l (deleteAt q m d) := by
  unfold deleteAt
  have hA : (d.take p).length = p := by
    simp only [List.length_take]; omega
  have hC : (d.take q).length = q := by
    simp only [List.length_take]; omega
  have e1 : q - l - p = q - (p + l) := by omega
  have e2 : p + l + (q - l + m - p) = q + m := by omega
  have e3 : min p q = p := by omega
  have h2 : (d.take p ++ d.drop (p + l)).take (q - l)
      = d.take p ++ (d.drop (p + l)).take (q - (p + l)) := by
    rw [take_append_long _ _ _ (by rw [hA]; omega), hA, e1]
  have h3 : (d.take p ++ d.drop (p + l)).drop (q - l + m)
      = d.drop (q + m) := by
    rw [drop_append_long _ _ _ (by rw [hA]; omega), hA, List.drop_drop, e2]
  have h4 : (d.take q ++ d.drop (q + m)).take p = d.take p := by
    rw [take_append_short _ _ _ (by rw [hC]; omega), List.take_take, e3]
  have h5 : (d.take q ++ d.drop (q + m)).drop (p + l)
      = (d.drop (p + l)).take (q - (p + l)) ++ d.drop (q + m) := by
    rw [drop_append_short _ _ _ (by rw [hC]; omega), List.drop_take]
  rw [h2, h3, h4, h5]
  simp [List.append_assoc]

/-- Commutation of partially overlapping deletes, the first starting no
later. -/
theorem del_del_core2 (d : List Char) (p l q m : Nat)
    (hpq : p ≤ q) (h1 : q ≤ p + l) (h2 : p + l ≤ q + m)
    (hq : q + m ≤ d.length) :
    deleteAt p (m - (p + l - q)) (deleteAt p l d)
      = deleteAt p (q - p) (deleteAt q m d) := by
  unfold deleteAt
  have hA : (d.take p).length = p := by
    simp only [List.length_take]; omega
  have hC : (d.take q).length = q := by
    simp only [List.length_take]; omega
  have e1 : min p p = p := by omega
  have e2 : p + l + (p + (m - (p + l - q)) - p) = q + m := by omega
  have e3 : min p q = p := by omega
  have e4 : p + (q - p) - q = 0 := by omega
  have h3 : (d.take p ++ d.drop (p + l)).take p = d.take p := by
    rw [take_append_short _ _ _ (by rw [hA]), List.take_take, e1]
  have h4 : (d.take p ++ d.drop (p + l)).drop (p + (m - (p + l - q)))
      = d.drop (q + m) := by
    rw [drop_append_long _ _ _ (by rw [hA]; omega), hA, List.drop_drop, e2]
  have h5 : (d.take q ++ d.drop (q + m)).take p = d.take p := by
    rw [take_append_short _ _ _ (by rw [hC]; omega), List.take_take, e3]
  have h6 : (d.take q ++ d.drop (q + m)).drop (p + (q - p))
      = d.drop (q + m) := by
    rw [drop_append_long _ _ _ (by rw [hC]; omega), hC, e4, List.drop_zero]
  rw [h3, h4, h5, h6]

/-- Commutation when the second delete is fully inside the first: the
transformed second delete is empty. -/
theorem del_del_core3 (d : List Char) (p l q m : Nat)
    (hpq : p ≤ q) (h2 : q + m ≤ p + l) (hp : p + l ≤ d.length) :
    deleteAt p 0 (deleteAt p l d) = deleteAt p (l - m) (deleteAt q m d) := by
  unfold deleteAt
  have hA : (d.take p).length = p := by
    simp only [List.length_take]; omega
  have hC : (d.take q).length = q := by
    simp only [List.length_take]; omega
  have e1 : min p p = p := by omega
  have e2 : p + 0 - p = 0 := by omega
  have e3 : min p q = p := by omega
  have e4 : q + m + (p + (l - m) - q) = p + l := by omega
  have h3 : (d.take p ++ d.drop (p + l)).take p = d.take p := by
    rw [take_append_short _ _ _ (by rw [hA]), List.take_take, e1]
  have h4 : (d.take p ++ d.drop (p + l)).drop (p + 0)
      = d.drop (p + l) := by
    rw [drop_append_long _ _ _ (by rw [hA]; omega), hA, e2, List.drop_zero]
  have h5 : (d.take q ++ d.drop (q + m)).take p = d.take p := by
    rw [take_append_short _ _ _ (by rw [hC]; omega), List.take_take, e3]
  have h6 : (d.take q ++ d.drop (q + m)).drop (p + (l - m))
      = d.drop (p + l) := by
    rw [drop_append_long _ _ _ (by rw [hC]; omega), hC, List.drop_drop, e4]
  rw [h3, h4, h5, h6]

/-- Transform-and-apply commutation for two inserts when the first
effectively precedes the second (smaller position, or equal position and
smaller originId). -/
theorem insIns_first (d : List Char) (a b : Op)
    (hka : a.kind = Kind.insert) (hkb : b.kind = Kind.insert)
    (hp : a.position ≤ d.length)
    (hfirst : a.position < b.position
      ∨ (a.position = b.position ∧ a.originId < b.originId)) :
    applyOp (transformOne b a) (applyOp a d)
      = applyOp (transformOne a b) (applyOp b d) := by
  obtain ⟨ka, pa, sa, la, va, oa, ca⟩ := a
  obtain ⟨kb, pb, sb, lb, vb, ob2, cb⟩ := b
  simp only at hka hkb hp hfirst
  subst hka hkb
  have hnot : ¬ (pb < pa ∨ (pb = pa ∧ ob2 < oa)) := by
    rintro (h | ⟨heq, ho⟩)
    · rcases hfirst with h2 | ⟨h2, _⟩ <;> omega
    · rcases hfirst with h2 | ⟨h2, ho2⟩
      · omega
      · exact absurd ho (lt_asymm ho2)
  simp only [transformOne, applyOp, if_pos hfirst, if_neg hnot]
  exact ins_ins_core d sa sb pa pb hp
    (by rcases hfirst with h | ⟨h, _⟩ <;> omega)

/-- Transform-and-apply commutation for any two inserts with distinct
originIds at validated positions. -/
theorem insIns_comm (d : List Char) (a b : Op)
    (hka : a.kind = Kind.insert) (hkb : b.kind = Kind.insert)
    (hpa : a.position ≤ d.length) (hpb : b.position ≤ d.length)
    (ho : a.originId ≠ b.originId) :
    applyOp (transformOne b a) (applyOp a d)
      = applyOp (transformOne a b) (applyOp b d) := by
  rcases Nat.lt_trichotomy a.position b.position with h | h | h
  · exact insIns_first d a b hka hkb hpa (Or.inl h)
  · rcases Ne.lt_or_lt ho with ho2 | ho2
    · exact insIns_first d a b hka hkb hpa (Or.inr ⟨h, ho2⟩)
    · exact (insIns_first d b a hkb hka hpb (Or.inr ⟨h.symm, ho2⟩)).symm
  · exact (insIns_first d b a hkb hka hpb (Or.inl h)).symm

/-- Transform-and-apply commutation for two deletes, assuming the first
starts no later. -/
theorem delDel_le (d : List Char) (a b : Op)
    (hka : a.kind = Kind.delete) (hkb : b.kind = Kind.delete)
    (hpq : a.position ≤ b.position)
    (hra : a.position + a.length ≤ d.length)
    (hrb : b.position + b.length ≤ d.length) :
    applyOp (transformOne b a) (applyOp a d)
      = applyOp (transformOne a b) (applyOp b d) := by
  obtain ⟨ka, pa, sa, la, va, oa, ca⟩ := a
  obtain ⟨kb, pb, sb, lb, vb, ob2, cb⟩ := b
  simp only at hka hkb hpq hra hrb
  subst hka hkb
  simp only [transformOne, applyOp]
  by_cases h1 : pa + la ≤ pb
  · have ea : pb - (min (pa + la) pb - pa) = pb - la := by omega
    have eb : lb - (min (pa + la) (pb + lb) - max pa pb) = lb := by omega
    have ec : pa - (min (pb + lb) pa - pb) = pa := by omega
    have ed : la - (min (pb + lb) (pa + la) - max pb pa) = la := by omega
    rw [ea, eb, ec, ed]
    exact del_del_core1 d pa la pb lb h1 hrb
  · by_cases h2 : pa + la ≤ pb + lb
    · have ea : pb - (min (pa + la) pb - pa) = pa := by omega
      have eb : lb - (min (pa + la) (pb + lb) - max pa pb)
          = lb - (pa + la - pb) := by omega
      have ec : pa - (min (pb + lb) pa - pb) = pa := by omega
      have ed : la - (min (pb + lb) (pa + la) - max pb pa) = pb - pa := by
        omega
      rw [ea, eb, ec, ed]
      exact del_del_core2 d pa la pb lb hpq (by omega) h2 hrb
    · have ea : pb - (min (pa + la) pb - pa) = pa := by omega
      have eb : lb - (min (pa + la) (pb + lb) - max pa pb) = 0 := by omega
      have ec : pa - (min (pb + lb) pa - pb) = pa := by omega
      have ed : la - (min (pb + lb) (pa + la) - max pb pa) = la - lb := by
        omega
      rw [ea, eb, ec, ed]
      exact del_del_core3 d pa la pb lb hpq (by omega) hra

/-- Transform-and-apply commutation for any two deletes with validated
ranges. -/
theorem delDel_comm (d : List Char) (a b : Op)
    (hka : a.kind = Kind.delete) (hkb : b.kind = Kind.delete)
    (hra : a.position + a.length ≤ d.length)
    (hrb : b.position + b.length ≤ d.length) :
    applyOp (transformOne b a) (applyOp a d)
      = applyOp (transformOne a b) (applyOp b d) := by
  rcases Nat.le_total a.position b.position with h | h
  · exact delDel_le d a b hka hkb h hra hrb
  · exact (delDel_le d b a hkb hka h hrb hra).symm

/-- The session increments the version once per submitted operation. -/
theorem runServer_fst_version (ops : List Op) (st : DocState) :
    (runServer st ops).1.version = st.version + ops.length := by
  induction ops generalizing st with
  | nil => simp [runServer]
  | cons op rest ih =>
      simp only [runServer, List.length_cons]
      rw [ih]
      simp only [submit]
      omega

/-- One broadcast is emitted per submitted operation. -/
theorem runServer_snd_length (ops : List Op) (st : DocState) :
    (runServer st ops).2.length = ops.length := by
  induction ops generalizing st with
  | nil => simp [runServer]
  | cons op rest ih =>
      simp only [runServer, List.length_cons]
      rw [ih]

/-- The versions carried by the broadcasts are consecutive from the starting
version plus one. -/
theorem runServer_bversions (ops : List Op) (st : DocState) :
    (runServer st ops).2.map Broadcast.version
      = List.range' (st.version + 1) ops.length := by
  induction ops generalizing st with
  | nil => simp [runServer]
  | cons op rest ih =>
      simp only [runServer, List.length_cons, List.map_cons]
      rw [ih]
      simp only [submit]
      rw [List.range'_succ]

/-- The history grows by exactly the broadcast (transformed) operations. -/
theorem runServer_hist (ops : List Op) (st : DocState) :
    (runServer st ops).1.history
      = st.history ++ ((runServer st ops).2.map Broadcast.op) := by
  induction ops generalizing st with
  | nil => simp [runServer]
  | cons op rest ih =>
      simp only [runServer, List.map_cons]
      rw [ih]
      simp only [submit]
      simp [List.append_assoc]

/-- Running a concatenation of batches runs them in sequence. -/
theorem runServer_append (l1 l2 : List Op) (st : DocState) :
    runServer st (l1 ++ l2)
      = ((runServer (runServer st l1).1 l2).1,
         (runServer st l1).2 ++ (runServer (runServer st l1).1 l2).2) := by
  induction l1 generalizing st with
  | nil => simp [runServer]
  | cons op rest ih =>
      simp only [List.cons_append, runServer, List.append_eq]
      rw [ih]

/-- Running a single operation is one submit step. -/
theorem runServer_one (st : DocState) (op : Op) :
    runServer st [op] = ((submit st op).1, [(submit st op).2]) := by
  simp [runServer]

/-- Extending a prefix run by the next operation is one submit step on the
prefix state. -/
theorem runServer_take_succ (c : List Char) (ops : List Op) (i : Nat)
    (hi : i < ops.length) :
    runServer (initState c) (ops.take (i+1))
      = ((submit (runServer (initState c) (ops.take i)).1 ops[i]).1,
         (runServer (initState c) (ops.take i)).2
           ++ [(submit (runServer (initState c) (ops.take i)).1 ops[i]).2]) := by
  have htake : ops.take (i+1) = ops.take i ++ [ops[i]] := by
    rw [List.take_succ, List.getElem?_eq_getElem hi]
    rfl
  rw [htake, runServer_append, runServer_one]

/-- A two-operation run from a state whose history matches its version: the
first op is applied untransformed, the second transformed against the first.
-/
theorem runServer_pair (st : DocState) (a b : Op)
    (hva : a.baseVersion = st.version) (hvb : b.baseVersion = st.version)
    (hh : st.history.length = st.version) :
    (runServer st [a, b]).1.content
        = applyOp (transformOne b a) (applyOp a st.content)
    ∧ (runServer st [a, b]).1.version = st.version + 2 := by
  have h1 : st.history.drop a.baseVersion = [] :=
    List.drop_eq_nil_of_le (by omega)
  have h2 : (st.history ++ [a]).drop b.baseVersion = [a] := by
    rw [hvb, ← hh, List.drop_left]
  simp only [runServer, submit, transform, h1, List.foldl_nil, h2,
    List.foldl_cons]
  exact ⟨trivial, trivial⟩

/-- An insert transformed against a prior insert that effectively precedes
it shifts right by the prior content length. -/
theorem transformOne_ins_ins_shift (a b : Op)
    (hka : a.kind = Kind.insert) (hkb : b.kind = Kind.insert)
    (h : a.position < b.position
      ∨ (a.position = b.position ∧ a.originId < b.originId)) :
    transformOne b a = { b with position := b.position + a.content.length } := by
  obtain ⟨ka, pa, sa, la, va, oa, ca⟩ := a
  obtain ⟨kb, pb, sb, lb, vb, ob2, cb⟩ := b
  simp only at hka hkb h
  subst hka hkb
  simp only [transformOne, if_pos h]

/-- An insert transformed against a prior insert that does not precede it is
unchanged. -/
theorem transformOne_ins_ins_keep (a b : Op)
    (hka : a.kind = Kind.insert) (hkb : b.kind = Kind.insert)
    (h : ¬ (a.position < b.position
      ∨ (a.position = b.position ∧ a.originId < b.originId))) :
    transformOne b a = b := by
  obtain ⟨ka, pa, sa, la, va, oa, ca⟩ := a
  obtain ⟨kb, pb, sb, lb, vb, ob2, cb⟩ := b
  simp only at hka hkb h
  subst hka hkb
  simp only [transformOne, if_neg h]

/-- Applying an insert operation splices its content at its position. -/
theorem applyOp_ins (op : Op) (d : List Char) (h : op.kind = Kind.insert) :
    applyOp op d = insertAt op.position op.content d := by
  obtain ⟨k, p, s, l, v, o, c⟩ := op
  simp only at h
  subst h
  rfl

/-- Lookup fails exactly when the key is absent from the registry. -/
theorem lookupSession_none_iff (reg : List (String × Nat)) (key : String) :
    lookupSession reg key = none ↔ key ∉ reg.map Prod.fst := by
  induction reg with
  | nil => simp [lookupSession]
  | cons kv rest ih =>
      obtain ⟨k, v⟩ := kv
      simp only [lookupSession, List.map_cons, List.mem_cons]
      by_cases h : k = key
      · subst h
        simp
      · simp only [if_neg h, ih, not_or]
        constructor
        · intro hk
          exact ⟨fun he => h he.symm, hk⟩
        · intro hk
          exact hk.2

/-- A successful lookup returns an entry of the registry. -/
theorem lookupSession_some_mem (reg : List (String × Nat)) (key : String)
    (sid : Nat) (h : lookupSession reg key = some sid) : (key, sid) ∈ reg := by
  induction reg with
  | nil => simp [lookupSession] at h
  | cons kv rest ih =>
      obtain ⟨k, v⟩ := kv
      by_cases hk : k = key
      · simp [lookupSession, hk] at h
        simp [hk, h]
      · simp [lookupSession, hk] at h
        simp [ih h]

/-- Every boundary event preserves distinctness of registry keys. -/
theorem srvStep_registry_nodup (st : ServerState) (e : SrvEvent)
    (h : (st.registry.map Prod.fst).Nodup) :
    ((srvStep st e).registry.map Prod.fst).Nodup := by
  cases e with
  | connect d t =>
      simp only [srvStep]
      cases hl : lookupSession st.registry (sessionKey d t) with
      | some sid => simpa using h
      | none =>
          have hk := (lookupSession_none_iff st.registry (sessionKey d t)).mp hl
          simp [List.nodup_append, h, hk]
  | disconnect d t =>
      simp only [srvStep]
      cases lookupSession st.registry (sessionKey d t) with
      | some sid => simpa using h
      | none => simpa using h
  | tick => simpa using h

/-- Distinctness of registry keys is preserved along any event sequence. -/
theorem foldl_registry_nodup (evs : List SrvEvent) (st : ServerState)
    (h : (st.registry.map Prod.fst).Nodup) :
    (((evs.foldl srvStep st).registry).map Prod.fst).Nodup := by
  induction evs generalizing st with
  | nil => simpa using h
  | cons e rest ih =>
      simp only [List.foldl_cons]
      exact ih _ (srvStep_registry_nodup st e h)

/-- Every reachable registry has pairwise distinct keys. -/
theorem runSrv_registry_nodup (evs : List SrvEvent) :
    (((runSrv evs).registry).map Prod.fst).Nodup := by
  unfold runSrv
  exact foldl_registry_nodup evs srvInit (by simp [srvInit])

/-- No boundary event removes a key from the registry. -/
theorem srvStep_registry_mono (st : ServerState) (e : SrvEvent) (k : String)
    (h : k ∈ st.registry.map Prod.fst) :
    k ∈ (srvStep st e).registry.map Prod.fst := by
  cases e with
  | connect d t =>
      simp only [srvStep]
      cases lookupSession st.registry (sessionKey d t) with
      | some sid => simpa using h
      | none =>
          simp only [List.map_append]
          exact List.mem_append_left _ h
  | disconnect d t =>
      simp only [srvStep]
      cases lookupSession st.registry (sessionKey d t) with
      | some sid => simpa using h
      | none => simpa using h
  | tick => simpa using h

/-- Registry membership persists along any event sequence. -/
theorem foldl_registry_mono (evs : List SrvEvent) (st : ServerState)
    (k : String) (h : k ∈ st.registry.map Prod.fst) :
    k ∈ ((evs.foldl srvStep st).registry).map Prod.fst := by
  induction evs generalizing st with
  | nil => simpa using h
  | cons e rest ih =>
      simp only [List.foldl_cons]
      exact ih _ (srvStep_registry_mono st e k h)

/-- After a connect event its session key is registered. -/
theorem connect_key_mem (st : ServerState) (d t : String) :
    sessionKey d t
      ∈ ((srvStep st (SrvEvent.connect d t)).registry).map Prod.fst := by
  simp only [srvStep]
  cases hl : lookupSession st.registry (sessionKey d t) with
  | some sid =>
      have := lookupSession_some_mem _ _ _ hl
      simpa using List.mem_map_of_mem Prod.fst this
  | none =>
      simp

/-- A connect event anywhere in the trace leaves its key registered at the
end. -/
theorem foldl_lazy_creation (evs : List SrvEvent) (st : ServerState)
    (d t : String) (h : SrvEvent.connect d t ∈ evs) :
    sessionKey d t ∈ ((evs.foldl srvStep st).registry).map Prod.fst := by
  induction evs generalizing st with
  | nil => simp at h
  | cons e rest ih =>
      simp only [List.foldl_cons]
      rcases List.mem_cons.mp h with he | hrest
      · subst he
        exact foldl_registry_mono rest _ _ (connect_key_mem st d t)
      · exact ih _ hrest

/-- A registered key either was already present or stems from some connect
event of the trace. -/
theorem foldl_keys_origin (evs : List SrvEvent) (st : ServerState)
    (k : String) (h : k ∈ ((evs.foldl srvStep st).registry).map Prod.fst) :
    k ∈ st.registry.map Prod.fst
      ∨ ∃ d t, k = sessionKey d t ∧ SrvEvent.connect d t ∈ evs := by
  induction evs generalizing st with
  | nil => exact Or.inl (by simpa using h)
  | cons e rest ih =>
      simp only [List.foldl_cons] at h
      rcases ih _ h with hst | ⟨d, t, hk, hev⟩
      · cases e with
        | connect d t =>
            simp only [srvStep] at hst
            cases hl : lookupSession st.registry (sessionKey d t) with
            | some sid =>
                rw [hl] at hst
                exact Or.inl (by simpa using hst)
            | none =>
                rw [hl] at hst
                simp only [List.map_append] at hst
                rcases List.mem_append.mp hst with h1 | h2
                · exact Or.inl h1
                · refine Or.inr ⟨d, t, ?_, List.mem_cons_self _ _⟩
                  simpa using h2
        | disconnect d t =>
            simp only [srvStep] at hst
            cases hl : lookupSession st.registry (sessionKey d t) with
            | some sid =>
                rw [hl] at hst
                exact Or.inl (by simpa using hst)
            | none =>
                rw [hl] at hst
                exact Or.inl hst
        | tick => exact Or.inl (by simpa using hst)
      · exact Or.inr ⟨d, t, hk, List.mem_cons_of_mem _ hev⟩

/-! The claims. -/

/-- C1 counterexample: for the two concurrent operations insert(2, "x") and
delete(1, 2) on content "abcd", both with baseVersion 0, the two application
orders through the OT pipeline yield different final content ("ad" versus
"axd"), refuting that any two permutation orders of a set of concurrent
operations give identical final content and version. -/
theorem convergence_counterexample :
    ¬ (((runServer (initState "abcd".toList) [opC1a, opC1b]).1.content
          = (runServer (initState "abcd".toList) [opC1b, opC1a]).1.content)
        ∧ ((runServer (initState "abcd".toList) [opC1a, opC1b]).1.version
          = (runServer (initState "abcd".toList) [opC1b, opC1a]).1.version)) := by
  decide

/-- C1 (amended): transforming and applying any two permutations of a set of
concurrent operations yields an identical final version; the final content
is additionally identical whenever the set consists of two operations of the
same kind sharing the baseVersion of the current state - two inserts with
distinct originIds or two deletes - at validated positions. (The
counterexample, an insert falling strictly inside a concurrent delete, is
excluded.) -/
theorem convergence_amended :
    (∀ (st : DocState) (ops1 ops2 : List Op), List.Perm ops1 ops2 →
        (runServer st ops1).1.version = (runServer st ops2).1.version)
    ∧ (∀ (st : DocState) (a b : Op),
        a.baseVersion = st.version → b.baseVersion = st.version →
        st.history.length = st.version →
        ((a.kind = Kind.insert ∧ b.kind = Kind.insert
            ∧ a.originId ≠ b.originId
            ∧ a.position ≤ st.content.length
            ∧ b.position ≤ st.content.length)
          ∨ (a.kind = Kind.delete ∧ b.kind = Kind.delete
            ∧ a.position + a.length ≤ st.content.length
            ∧ b.position + b.length ≤ st.content.length)) →
        (runServer st [a, b]).1.content = (runServer st [b, a]).1.content
        ∧ (runServer st [a, b]).1.version
            = (runServer st [b, a]).1.version) := by
  constructor
  · intro st ops1 ops2 hperm
    rw [runServer_fst_version, runServer_fst_version, hperm.length_eq]
  · intro st a b hva hvb hh hcase
    obtain ⟨h1c, h1v⟩ := runServer_pair st a b hva hvb hh
    obtain ⟨h2c, h2v⟩ := runServer_pair st b a hvb hva hh
    refine ⟨?_, by rw [h1v, h2v]⟩
    rw [h1c, h2c]
    rcases hcase with ⟨hka, hkb, ho, hpa, hpb⟩ | ⟨hka, hkb, hra, hrb⟩
    · exact insIns_comm st.content a b hka hkb hpa hpb ho
    · exact delDel_comm st.content a b hka hkb hra hrb

/-- Witness for C1: the amended claim instantiated at concrete inputs. -/
theorem convergence_amended_witness :
    ((runServer (initState ['a', 'b']) [w1a, w1b]).1.version
        = (runServer (initState ['a', 'b']) [w1b, w1a]).1.version)
    ∧ ((runServer (initState ['a', 'b']) [w1a, w1b]).1.content
        = (runServer (initState ['a', 'b']) [w1b, w1a]).1.content) :=
  ⟨convergence_amended.1 (initState ['a', 'b']) [w1a, w1b] [w1b, w1a]
      (List.Perm.swap w1b w1a []),
   (convergence_amended.2 (initState ['a', 'b']) w1a w1b rfl rfl rfl
      (Or.inl ⟨rfl, rfl, by decide, by decide, by decide⟩)).1⟩

/-- C2: starting from a document at version 5 with content "hello",
insert(5, " world") from client A and insert(0, "Hi, ") from client B, both
with baseVersion 5, produce final content "Hi, hello world" and final
version 7 regardless of which operation is applied first. -/
theorem exampleScenario_converges :
    ((runServer stC2 [opA2, opB2]).1.content = "Hi, hello world".toList
      ∧ (runServer stC2 [opA2, opB2]).1.version = 7)
    ∧ ((runServer stC2 [opB2, opA2]).1.content = "Hi, hello world".toList
      ∧ (runServer stC2 [opB2, opA2]).1.version = 7) := by
  decide

/-- C3: two inserts at the same position with different originIds are
ordered by lexicographic comparison of originId - the lexicographically
smaller connection id is treated as occurring first - so both session
arrival orders produce the same final content, with the smaller origin
content placed before the larger one. -/
theorem tieBreak_deterministic (st : DocState) (a b : Op)
    (hka : a.kind = Kind.insert) (hkb : b.kind = Kind.insert)
    (hpos : a.position = b.position) (ho : a.originId < b.originId)
    (hp : a.position ≤ st.content.length)
    (hva : a.baseVersion = st.version) (hvb : b.baseVersion = st.version)
    (hh : st.history.length = st.version) :
    (runServer st [a, b]).1.content
        = st.content.take a.position ++ a.content ++ b.content
            ++ st.content.drop a.position
    ∧ (runServer st [b, a]).1.content
        = st.content.take a.position ++ a.content ++ b.content
            ++ st.content.drop a.position := by
  obtain ⟨h1, _⟩ := runServer_pair st a b hva hvb hh
  obtain ⟨h2, _⟩ := runServer_pair st b a hvb hva hh
  have hshift := transformOne_ins_ins_shift a b hka hkb (Or.inr ⟨hpos, ho⟩)
  have hkeep : transformOne a b = a := by
    refine transformOne_ins_ins_keep b a hkb hka ?_
    rintro (h | ⟨heq, h⟩)
    · omega
    · exact absurd h (lt_asymm ho)
  constructor
  · rw [h1, hshift, applyOp_ins _ _ (by simpa using hkb),
      applyOp_ins a _ hka]
    simp only
    rw [← hpos]
    exact ins_ins_tie_first st.content a.content b.content a.position hp
  · rw [h2, hkeep, applyOp_ins a _ hka, applyOp_ins b _ hkb, ← hpos]
    exact ((ins_ins_core st.content a.content b.content a.position a.position
      hp (Nat.le_refl _)).symm).trans
      (ins_ins_tie_first st.content a.content b.content a.position hp)

/-- Witness for C3: the tie-break claim instantiated at concrete inputs. -/
theorem tieBreak_deterministic_witness :
    (runServer (initState ['a', 'b']) [w3a, w3b]).1.content
        = ['a', 'x', 'y', 'b']
    ∧ (runServer (initState ['a', 'b']) [w3b, w3a]).1.content
        = ['a', 'x', 'y', 'b'] := by
  have h := tieBreak_deterministic (initState ['a', 'b']) w3a w3b rfl rfl rfl
    (by show ("A" : String) < "B"; rw [String.lt_iff_toList_lt]; decide)
    (by decide) rfl rfl rfl
  exact ⟨h.1.trans (by decide), h.2.trans (by decide)⟩

/-- C4: a delete transformed against a prior delete is reduced to the
original range minus the overlap already consumed (its length is the
original length minus the overlap size); when the prior delete fully
contains it the result has length 0 and applying it is a no-op; the
transformed range always stays inside the document, so no out-of-range fault
arises. -/
theorem deleteOverlap_transform (a b : Op) (d : List Char)
    (hka : a.kind = Kind.delete) (hkb : b.kind = Kind.delete)
    (ha : a.position + a.length ≤ d.length) :
    ((transformOne b a).length
        = b.length - ((Finset.Ico b.position (b.position + b.length))
            ∩ (Finset.Ico a.position (a.position + a.length))).card)
    ∧ (a.position ≤ b.position →
        b.position + b.length ≤ a.position + a.length →
        (transformOne b a).length = 0
        ∧ applyOp (transformOne b a) (applyOp a d) = applyOp a d)
    ∧ (b.position + b.length ≤ d.length →
        (transformOne b a).position + (transformOne b a).length
          ≤ (applyOp a d).length) := by
  obtain ⟨ka, pa, sa, la, va, oa, ca⟩ := a
  obtain ⟨kb, pb, sb, lb, vb, ob2, cb⟩ := b
  simp only at hka hkb ha
  subst hka hkb
  refine ⟨?_, ?_, ?_⟩
  · simp only [transformOne]
    rw [Finset.Ico_inter_Ico, Nat.card_Ico]
    omega
  · intro hc1 hc2
    simp only at hc1 hc2
    constructor
    · simp only [transformOne]
      omega
    · simp only [transformOne, applyOp]
      have hlen : lb - (min (pa + la) (pb + lb) - max pa pb) = 0 := by omega
      rw [hlen]
      unfold deleteAt
      rw [Nat.add_zero, List.take_append_drop]
  · intro hb
    simp only at hb
    simp only [transformOne, applyOp, deleteAt, List.length_append,
      List.length_take, List.length_drop]
    omega

/-- Witness for C4: the delete-overlap claim instantiated at concrete
inputs. -/
theorem deleteOverlap_transform_witness :
    (transformOne w4b w4a).length = 0
    ∧ applyOp (transformOne w4b w4a) (applyOp w4a ['a', 'b', 'c'])
        = applyOp w4a ['a', 'b', 'c']
    ∧ (transformOne w4b w4a).length
        = w4b.length - ((Finset.Ico w4b.position (w4b.position + w4b.length))
            ∩ (Finset.Ico w4a.position (w4a.position + w4a.length))).card :=
  have h := deleteOverlap_transform w4a w4b ['a', 'b', 'c'] rfl rfl
    (by decide)
  ⟨(h.2.1 (by decide) (by decide)).1, (h.2.1 (by decide) (by decide)).2, h.1⟩

/-- C5: from version 0, the version is incremented exactly once per accepted
operation, the broadcast versions are exactly 1, 2, ..., n and strictly
increasing, and for each i the stored history entry i is the broadcast
operation whose application produced the transition from version i to
version i + 1, tagged with the version it produced. -/
theorem version_history_invariant (c : List Char) (ops : List Op) :
    (runServer (initState c) ops).1.version = ops.length
    ∧ (runServer (initState c) ops).2.map Broadcast.version
        = List.range' 1 ops.length
    ∧ List.Pairwise (· < ·)
        ((runServer (initState c) ops).2.map Broadcast.version)
    ∧ ∀ i, i < ops.length →
        ((runServer (initState c) ops).2[i]?).map Broadcast.version
            = some (i + 1)
        ∧ ∃ op',
            ((runServer (initState c) ops).1.history)[i]? = some op'
            ∧ ((runServer (initState c) ops).2[i]?).map Broadcast.op
                = some op'
            ∧ (runServer (initState c) (ops.take i)).1.version = i
            ∧ (runServer (initState c) (ops.take (i+1))).1.version = i + 1
            ∧ (runServer (initState c) (ops.take (i+1))).1.content
                = applyOp op'
                    (runServer (initState c) (ops.take i)).1.content := by
  have hver : (runServer (initState c) ops).1.version = ops.length := by
    rw [runServer_fst_version]
    simp [initState]
  have hbv : (runServer (initState c) ops).2.map Broadcast.version
      = List.range' 1 ops.length := by
    rw [runServer_bversions]
    simp [initState]
  refine ⟨hver, hbv, ?_, ?_⟩
  · rw [hbv]
    exact List.pairwise_lt_range' 1 ops.length
  · intro i hi
    have hvI : (runServer (initState c) (ops.take i)).1.version = i := by
      rw [runServer_fst_version]
      simp only [initState, List.length_take]
      omega
    have hlenI : (runServer (initState c) (ops.take i)).2.length = i := by
      rw [runServer_snd_length, List.length_take]
      omega
    have hstep := runServer_take_succ c ops i hi
    have hsplit := runServer_append (ops.take (i+1)) (ops.drop (i+1))
      (initState c)
    rw [List.take_append_drop] at hsplit
    have hbs : (runServer (initState c) ops).2
        = ((runServer (initState c) (ops.take i)).2
            ++ [(submit (runServer (initState c) (ops.take i)).1 ops[i]).2])
          ++ (runServer (runServer (initState c) (ops.take (i+1))).1
              (ops.drop (i+1))).2 := by
      rw [hsplit, hstep]
    have hgeti : (runServer (initState c) ops).2[i]?
        = some (submit (runServer (initState c) (ops.take i)).1 ops[i]).2 := by
      rw [hbs]
      rw [List.getElem?_append_left (by
        simp only [List.length_append, List.length_singleton]
        omega)]
      rw [List.getElem?_append_right (by omega), hlenI, Nat.sub_self]
      rfl
    have hhist : (runServer (initState c) ops).1.history
        = (runServer (initState c) ops).2.map Broadcast.op := by
      rw [runServer_hist]
      simp [initState]
    refine ⟨?_, (submit (runServer (initState c) (ops.take i)).1 ops[i]).2.op,
      ?_, ?_, hvI, ?_, ?_⟩
    · rw [hgeti]
      simp only [Option.map_some, submit]
      rw [hvI]
      rfl
    · rw [hhist, List.getElem?_map, hgeti]
      rfl
    · rw [hgeti]
      rfl
    · rw [hstep]
      simp only [submit]
      rw [hvI]
    · rw [hstep]
      simp only [submit]

/-- Witness for C5: the invariant instantiated at a concrete run. -/
theorem version_history_invariant_witness :
    (runServer (initState ['a', 'b']) [w5a]).1.version = 1
    ∧ ((runServer (initState ['a', 'b']) [w5a]).2[0]?).map Broadcast.version
        = some 1 :=
  ⟨(version_history_invariant ['a', 'b'] [w5a]).1,
   ((version_history_invariant ['a', 'b'] [w5a]).2.2.2 0 (by decide)).1⟩

/-- C6: the connection handler resolves the role of a connecting
(documentId, userId) as follows: the document owner gets owner; otherwise an
explicit ACL role is used; otherwise the link-sharing default applies unless
it is none, in which case the connection is denied. -/
theorem authorize_policy (owner aclRole linkAccess : Option String)
    (u : String) :
    (owner = some u → authorize owner aclRole linkAccess u = some "owner")
    ∧ (owner ≠ some u → ∀ r, aclRole = some r → r ≠ "" →
        authorize owner aclRole linkAccess u = some r)
    ∧ (owner ≠ some u → (aclRole = none ∨ aclRole = some "") →
        linkSettingOf linkAccess ≠ "none" →
        authorize owner aclRole linkAccess u = some (linkSettingOf linkAccess))
    ∧ (owner ≠ some u → (aclRole = none ∨ aclRole = some "") →
        linkSettingOf linkAccess = "none" →
        authorize owner aclRole linkAccess u = none) := by
  refine ⟨?_, ?_, ?_, ?_⟩
  · intro h
    simp [authorize, h]
  · intro h r hr hne
    simp [authorize, h, hr, jsTruthy, hne]
  · intro h hacl hlink
    rcases hacl with h2 | h2 <;>
      simp [authorize, h, h2, jsTruthy, hlink]
  · intro h hacl hlink
    rcases hacl with h2 | h2 <;>
      simp [authorize, h, h2, jsTruthy, hlink]

/-- Witness for C6: all four branches instantiated at concrete inputs. -/
theorem authorize_policy_witness :
    authorize (some "u") none none "u" = some "owner"
    ∧ authorize none (some "editor") none "u" = some "editor"
    ∧ authorize none none (some "viewer") "u" = some "viewer"
    ∧ authorize none none none "u" = none :=
  ⟨(authorize_policy (some "u") none none "u").1 rfl,
   (authorize_policy none (some "editor") none "u").2.1 (by decide) "editor"
      rfl (by decide),
   (authorize_policy none none (some "viewer") "u").2.2.1 (by decide)
      (Or.inl rfl) (by decide),
   (authorize_policy none none none "u").2.2.2 (by decide) (Or.inl rfl) rfl⟩

/-- C7: resolving a (documentId, tabId) key returns the existing live
session unchanged or atomically creates one, and at no reachable state do
two distinct live sessions exist under the same key in the process-wide
registry. -/
theorem session_registry_unique :
    (∀ evs : List SrvEvent, ¬ ∃ k s1 s2, s1 ≠ s2
        ∧ (k, s1) ∈ (runSrv evs).registry ∧ (k, s2) ∈ (runSrv evs).registry)
    ∧ (∀ (reg : List (String × Nat)) (key : String) (fresh sid : Nat),
        lookupSession reg key = some sid →
        resolveSession reg key fresh = (sid, reg))
    ∧ (∀ (reg : List (String × Nat)) (key : String) (fresh : Nat),
        lookupSession reg key = none →
        resolveSession reg key fresh = (fresh, reg ++ [(key, fresh)])) := by
  refine ⟨?_, ?_, ?_⟩
  · rintro evs ⟨k, s1, s2, hne, h1, h2⟩
    have hnd := runSrv_registry_nodup evs
    have := List.inj_on_of_nodup_map hnd h1 h2 rfl
    exact hne (congrArg Prod.snd this)
  · intro reg key fresh sid h
    simp [resolveSession, h]
  · intro reg key fresh h
    simp [resolveSession, h]

/-- Witness for C7: resolve instantiated on a present and on an absent key. -/
theorem session_registry_unique_witness :
    resolveSession [("k", 0)] "k" 5 = (0, [("k", 0)])
    ∧ resolveSession [] "k" 7 = (7, [("k", 7)]) :=
  ⟨session_registry_unique.2.1 [("k", 0)] "k" 5 0 (by decide),
   session_registry_unique.2.2 [] "k" 7 rfl⟩

/-- C8: the inbound message handler parses the frame and handles it with no
surrounding try/catch, so a frame the parser rejects ends in an uncaught
exception escaping the handler - the operation is not rejected as a
ProtocolError with the client notified and the session continuing, as the
claim requires; the claim matches the stated error design and the code is
the slip. -/
theorem malformedFrame_uncaught (parse : String → Option Op)
    (handleEdit : Op → DocState → DocState × List Broadcast)
    (frame : String) (st : DocState) (h : parse frame = none) :
    wsMessageHandler parse handleEdit frame st = Except.error ()
    ∧ ∀ r, wsMessageHandler parse handleEdit frame st ≠ Except.ok r := by
  simp [wsMessageHandler, h]

/-- Witness for C8: the handler evaluated at a concrete malformed frame. -/
theorem malformedFrame_uncaught_witness :
    wsMessageHandler (fun _ => none) (fun _ s => (s, [])) "notjson"
        (initState []) = Except.error () :=
  (malformedFrame_uncaught (fun _ => none) (fun _ s => (s, [])) "notjson"
      (initState []) rfl).1

/-- C9 counterexample: a concrete denied connection receives the error
payload and then a close carrying no close code (ws.close() is called with
no argument), so no close with code 4001 occurs, refuting the claim as
stated. -/
theorem accessDenied_counterexample :
    connectionHandler (some "d1") (some "t1") (some "u1") none none none
      = [WsAction.send accessDeniedMsg, WsAction.close none]
    ∧ WsAction.close (some 4001)
        ∉ connectionHandler (some "d1") (some "t1") (some "u1")
            none none none := by
  decide

/-- C9 (amended): when access is denied at the connection boundary, the
server sends the client the error message of the form with type error and
message string, and then closes the connection with no explicit close code
(a default normal closure), not with close code 4001. -/
theorem accessDenied_sends_error_then_closes
    (d t u : String) (owner acl link : Option String)
    (hd : d ≠ "") (ht : t ≠ "") (hu : u ≠ "")
    (hdeny : authorize owner acl link u = none) :
    connectionHandler (some d) (some t) (some u) owner acl link
      = [WsAction.send accessDeniedMsg, WsAction.close none] := by
  simp [connectionHandler, hd, ht, hu, hdeny]

/-- Witness for C9: the amended claim instantiated at a concrete denied
connection. -/
theorem accessDenied_close_witness :
    connectionHandler (some "docA") (some "tabA") (some "userA")
        none none none
      = [WsAction.send accessDeniedMsg, WsAction.close none] :=
  accessDenied_sends_error_then_closes "docA" "tabA" "userA" none none none
    (by decide) (by decide) (by decide) (by decide)

/-- C10 counterexample: after a connect, a disconnect and three clock ticks,
the session connection count is zero and the grace period has elapsed with
zero connections, yet the session is still present in the registry - it is
not destroyed nor removed, refuting the claim as stated. -/
theorem sessionTeardown_counterexample :
    (runSrv c10trace).conns = [0]
    ∧ (runSrv c10trace).time = 3
    ∧ ¬ (lookupSession (runSrv c10trace).registry (sessionKey "d" "t")
          = none)
    ∧ lookupSession (runSrv c10trace).registry (sessionKey "d" "t")
        = some 0 := by
  decide

/-- C10 (amended): a Document Session is created lazily on the first
connection to its key and only connect events create registry entries; once
created, the session is never removed from the process-wide registry -
disconnects and the passage of time leave the registry unchanged and later
connections reuse the entry. -/
theorem sessions_lazy_persistent :
    (∀ (st : ServerState) (e : SrvEvent) (k : String),
        k ∈ st.registry.map Prod.fst
        → k ∈ (srvStep st e).registry.map Prod.fst)
    ∧ (∀ (evs : List SrvEvent) (d t : String),
        SrvEvent.connect d t ∈ evs →
        sessionKey d t ∈ ((runSrv evs).registry).map Prod.fst)
    ∧ (∀ (evs : List SrvEvent) (k : String),
        k ∈ ((runSrv evs).registry).map Prod.fst →
        ∃ d t, k = sessionKey d t ∧ SrvEvent.connect d t ∈ evs) := by
  refine ⟨srvStep_registry_mono, ?_, ?_⟩
  · intro evs d t h
    exact foldl_lazy_creation evs srvInit d t h
  · intro evs k h
    rcases foldl_keys_origin evs srvInit k h with hst | hex
    · simp [srvInit] at hst
    · exact hex

/-- Witness for C10: all three parts instantiated at concrete inputs. -/
theorem sessions_lazy_persistent_witness :
    sessionKey "a" "b"
        ∈ ((srvStep wSrvState SrvEvent.tick).registry).map Prod.fst
    ∧ sessionKey "a" "b"
        ∈ ((runSrv [SrvEvent.connect "a" "b"]).registry).map Prod.fst
    ∧ ∃ d t, "a::b" = sessionKey d t
        ∧ SrvEvent.connect d t ∈ [SrvEvent.connect "a" "b"] :=
  ⟨sessions_lazy_persistent.1 _ SrvEvent.tick (sessionKey "a" "b") (by decide),
   sessions_lazy_persistent.2.1 [SrvEvent.connect "a" "b"] "a" "b"
      (by decide),
   sessions_lazy_persistent.2.2 [SrvEvent.connect "a" "b"] "a::b" (by decide)⟩

end CTE
